import Mathlib

/-
Verification of the status-monitor core (monitor.go / config.go).

The Go source is shallowly embedded: each definition below carries a
reference to the function and lines of monitor.go it translates.
Library calls of the Go runtime (net/http, encoding/json) are modelled
as explicit inputs (a FetchResult value, parse functions passed as
arguments); everything written in the repository itself is translated
directly.
-/

namespace Status

/-- Check: one probe outcome (monitor.go lines 25-31).  `time.Time` is
modelled as a Nat timestamp; `ResponseTime` is the elapsed wall time in
milliseconds (an int64 in Go, always nonnegative, modelled as Nat). -/
structure Check where
  timestamp : Nat
  statusCode : Nat
  responseTime : Nat
  success : Bool
  error : String
  deriving DecidableEq, Repr

/-- Instance: one monitored endpoint (monitor.go lines 14-23).  The
`sync.RWMutex` field is concurrency plumbing and has no data content. -/
structure Instance where
  group : String
  url : String
  instanceType : String
  cors : Bool
  groupOrder : Nat
  index : Nat
  checks : List Check
  deriving DecidableEq, Repr

/-- ApiGroupDetail (monitor.go lines 53-56). -/
structure ApiGroupDetail where
  urls : List String
  cors : Bool
  deriving DecidableEq, Repr

/-- InstancesJSON (monitor.go lines 57-60).  The Go maps are modelled as
association lists with unique keys; lookup is by first match. -/
structure InstancesJSON where
  api : List (String × ApiGroupDetail)
  ui : List (String × List String)
  deriving DecidableEq, Repr

/-- Association-list lookup, modelling a Go map read (`data.API[group]`). -/
def lookupA {α : Type} : List (String × α) → String → Option α
  | [], _ => none
  | (k, v) :: t, key => if k = key then some v else lookupA t key

/-- The `existingInstances` map of updateInstances: URL to Instance. -/
abbrev UrlMap := List (String × Instance)

/-- Map lookup (`existingInstances[instanceURL]`). -/
def mapLookup (m : UrlMap) (k : String) : Option Instance :=
  lookupA m k

/-- Map deletion (`delete(existingInstances, instanceURL)`). -/
def mapErase (m : UrlMap) (k : String) : UrlMap :=
  m.filter (fun p => p.1 ≠ k)

/-- Map insertion with overwrite, modelling `existingInstances[inst.URL] = inst`
(a later insert for the same key wins, as in a Go map). -/
def mapInsert (m : UrlMap) (k : String) (v : Instance) : UrlMap :=
  mapErase m k ++ [(k, v)]

/-- Building the `existingInstances` map from the current registry
(monitor.go lines 86-91). -/
def buildMap (insts : List Instance) : UrlMap :=
  insts.foldl (fun m i => mapInsert m i.url i) []

/-- One group's inner URL loop of updateInstances (monitor.go lines
99-117 for the API section, 125-143 for the UI section; the two blocks
are identical up to the instance type and CORS value, which are passed
as parameters here).  An existing Instance is updated in place (group,
groupOrder, cors) and removed from the map; an unknown URL gets a fresh
Instance with empty history and zero index. -/
def walkGroupUrls (grp ity : String) (cors : Bool) (g : Nat) :
    List String → UrlMap → List Instance → UrlMap × List Instance
  | [], m, acc => (m, acc)
  | u :: rest, m, acc =>
    match mapLookup m u with
    | some ex =>
        walkGroupUrls grp ity cors g rest (mapErase m u)
          (acc ++ [{ ex with group := grp, groupOrder := g, cors := cors }])
    | none =>
        walkGroupUrls grp ity cors g rest m
          (acc ++ [{ group := grp, url := u, instanceType := ity, cors := cors,
                     groupOrder := g, index := 0, checks := [] }])

/-- The API-section group loop of updateInstances (monitor.go lines
97-120): walk groups in extracted order, skipping names absent from the
parsed map, incrementing the shared group counter per present group. -/
def processApiGroups (api : List (String × ApiGroupDetail)) :
    List String → UrlMap → List Instance → Nat → UrlMap × List Instance × Nat
  | [], m, acc, g => (m, acc, g)
  | grp :: rest, m, acc, g =>
    match lookupA api grp with
    | some d =>
        let p := walkGroupUrls grp "api" d.cors g d.urls m acc
        processApiGroups api rest p.1 p.2 (g + 1)
    | none => processApiGroups api rest m acc g

/-- The UI-section group loop of updateInstances (monitor.go lines
123-146): same walk with instance type "ui" and CORS forced to false. -/
def processUIGroups (ui : List (String × List String)) :
    List String → UrlMap → List Instance → Nat → UrlMap × List Instance × Nat
  | [], m, acc, g => (m, acc, g)
  | grp :: rest, m, acc, g =>
    match lookupA ui grp with
    | some urls =>
        let p := walkGroupUrls grp "ui" false g urls m acc
        processUIGroups ui rest p.1 p.2 (g + 1)
    | none => processUIGroups ui rest m acc g

/-- Index assignment of updateInstances (monitor.go lines 156-158) with
the running position made explicit: the element at position n (counting
from the given offset) gets index n + 1. -/
def assignIndexesFrom (n : Nat) : List Instance → List Instance
  | [] => []
  | i :: t => { i with index := n + 1 } :: assignIndexesFrom (n + 1) t

/-- Index assignment of updateInstances (monitor.go lines 156-158):
`inst.Index = i + 1` over the final list. -/
def assignIndexes (l : List Instance) : List Instance :=
  assignIndexesFrom 0 l

/-- The merge phase of updateInstances (monitor.go lines 86-146): build
the URL map from the current registry, then walk the API groups and the
UI groups.  Returns the leftover map (never-matched existing instances)
and the new ordered list before index assignment. -/
def reconcileCore (data : InstancesJSON) (apiOrder uiOrder : List String)
    (old : List Instance) : UrlMap × List Instance :=
  let m0 := buildMap old
  let p1 := processApiGroups data.api apiOrder m0 [] 0
  let p2 := processUIGroups data.ui uiOrder p1.1 p1.2.1 p1.2.2
  (p2.1, p2.2.1)

/-- The successful-fetch tail of updateInstances (monitor.go lines
86-166): merge, compute `addedCount` and `removedCount` exactly as the
source does (lines 148-149, note the subtraction is over Go ints and can
go negative), assign indexes, and report whether a broadcast is
triggered (lines 162-164: broadcast iff addedCount > 0 or
removedCount > 0). -/
def reconcile (data : InstancesJSON) (apiOrder uiOrder : List String)
    (old : List Instance) : List Instance × Bool :=
  let p := reconcileCore data apiOrder uiOrder old
  let addedCount : Int := (p.2.length : Int) - ((old.length : Int) - (p.1.length : Int))
  let removedCount : Nat := p.1.length
  (assignIndexes p.2, decide (0 < addedCount) || decide (0 < removedCount))

/-- Result of the HTTP fetch of the configuration (monitor.go lines
63-76): either a transport error, or a completed response with a status
code and a body (read fully; a body-read error is folded into netError,
it takes the same early-return path). -/
inductive FetchResult where
  | netError (msg : String)
  | response (status : Nat) (body : List Char)
  deriving DecidableEq

/-- Boolean list-prefix test, used to model `strings.Index`. -/
def prefixAt : List Char → List Char → Bool
  | [], _ => true
  | _ :: _, [] => false
  | a :: as, b :: bs => a = b && prefixAt as bs

/-- strings.Index (Go standard library): index of the first occurrence
of `pat` in `s`, or none.  `strings.Index(s, "")` is 0, as in Go. -/
def strIndexOf (s pat : List Char) : Option Nat :=
  if prefixAt pat s then some 0
  else
    match s with
    | [] => none
    | _ :: t => (strIndexOf t pat).map (· + 1)

/-- The quoted form of a key: `"\"" + key + "\""` (monitor.go lines 170
and 215). -/
def quoteKey (k : String) : List Char :=
  '"' :: k.toList ++ ['"']

/-- The brace-matching loop of extractOrderFromJSON (monitor.go lines
181-190): starting just after the opening brace with a nesting count of
1, advance until the count returns to 0 or the input ends; returns how
many characters were consumed.  Quotes are not treated specially, as in
the source. -/
def braceAdvance (count : Nat) : List Char → Nat
  | [] => 0
  | c :: cs =>
    if count = 0 then 0
    else
      let count' := if c = '{' then count + 1 else if c = '}' then count - 1 else count
      1 + braceAdvance count' cs

/-- The inner selection loop of extractOrderFromJSON (monitor.go lines
200-224): over the not-yet-ordered keys, find the one whose quoted form
occurs earliest at or after the cursor, keeping the first key seen on a
strictly-smaller position (`foundPos < earliestPos`).  The accumulator
none models the sentinel pair (len(sectionJSON), ""). -/
def findEarliestAux (s : List Char) (pos : Nat) :
    List String → Option (String × Nat) → Option (String × Nat)
  | [], best => best
  | k :: ks, best =>
    let cur := (strIndexOf (s.drop pos) (quoteKey k)).map (· + pos)
    let best' :=
      match cur, best with
      | none, b => b
      | some p, none => some (k, p)
      | some p, some (k0, p0) => if p < p0 then some (k, p) else some (k0, p0)
    findEarliestAux s pos ks best'

/-- Entry point of the selection loop with the empty accumulator. -/
def findEarliest (s : List Char) (pos : Nat) (ks : List String) :
    Option (String × Nat) :=
  findEarliestAux s pos ks none

/-- The outer ordering loop of extractOrderFromJSON (monitor.go lines
198-232): repeatedly select the earliest remaining key, append it, and
move the cursor past its quoted occurrence (`pos = earliestPos +
len(earliestKey) + 2`).  The loop breaks when no remaining key can be
located, which in the source is signalled by the sentinel key ""
(`if earliestKey != ""`); a genuine empty-string key selected as
earliest therefore also stops the loop.  Fuel is the number of keys,
matching `for len(order) < len(groups)`. -/
def scanKeys (s : List Char) : Nat → List String → Nat → List String
  | 0, _, _ => []
  | n + 1, remaining, pos =>
    match findEarliest s pos remaining with
    | none => []
    | some (k, p) =>
      if k = "" then []
      else k :: scanKeys s n (remaining.erase k) (p + k.toList.length + 2)

/-- extractOrderFromJSON (monitor.go lines 169-235).  `parseKeys` models
`json.Unmarshal` of the section substring into a map, returning the key
set (deduplicated, as map keys are unique; on malformed input the Go
call leaves the map nil, modelled by returning the empty list). -/
def extractOrderFromJSON (parseKeys : List Char → List String)
    (jsonStr : List Char) (sec : List Char) : List String :=
  match strIndexOf jsonStr ('"' :: sec ++ ['"']) with
  | none => []
  | some sectionStart =>
    match strIndexOf (jsonStr.drop sectionStart) ['{'] with
    | none => []
    | some b0 =>
      let braceStart := b0 + sectionStart
      let sectionJSON :=
        (jsonStr.drop braceStart).take (1 + braceAdvance 1 (jsonStr.drop (braceStart + 1)))
      let keys := (parseKeys sectionJSON).dedup
      scanKeys sectionJSON keys.length keys 0

/-- updateInstances (monitor.go lines 62-167): fetch, reject non-200
responses, parse (`parse` models `json.Unmarshal` of the body into
InstancesJSON), extract both section orders from the raw body, and
reconcile.  Errors are returned to the caller. -/
def updateInstancesM (parse : List Char → Option InstancesJSON)
    (parseKeys : List Char → List String)
    (fetch : FetchResult) (old : List Instance) :
    Except String (List Instance × Bool) :=
  match fetch with
  | .netError msg => .error ("failed to fetch instances: " ++ msg)
  | .response status body =>
    if status = 200 then
      match parse body with
      | none => .error "failed to parse instances JSON"
      | some data =>
        let apiOrder := extractOrderFromJSON parseKeys body "api".toList
        let uiOrder := extractOrderFromJSON parseKeys body "ui".toList
        .ok (reconcile data apiOrder uiOrder old)
    else
      .error ("failed to fetch instances with unexpected status code: " ++ toString status)

/-- The caller's view of one reconciliation attempt (monitor.go lines
155-160 together with the error handling at the call sites, lines 49-51
and 250-253): on success the registry is replaced, on any error it is
kept unchanged and the error is reported (logged). -/
def runUpdate (parse : List Char → Option InstancesJSON)
    (parseKeys : List Char → List String)
    (fetch : FetchResult) (old : List Instance) :
    List Instance × Option String :=
  match updateInstancesM parse parseKeys fetch old with
  | .error e => (old, some e)
  | .ok p => (p.1, none)

/-- Outcome of a single probe HTTP GET (monitor.go line 298): either a
transport/connection failure (including timeout) carrying the error
description, or a completed response with a status code. -/
inductive ProbeResult where
  | failure (msg : String)
  | completed (status : Nat)
  deriving DecidableEq

/-- Probe target construction (monitor.go lines 283-288): api-kind
endpoints get the fixed search-query suffix, everything else is probed
at its URL unchanged. -/
def checkURL (inst : Instance) : String :=
  if inst.instanceType = "api" then inst.url ++ "/search/?s=kanye" else inst.url

/-- Outcome classification of checkInstance (monitor.go lines 294-308):
a failure records success=false, the error text, and leaves the status
code at its zero value; a completed response records the status code and
success iff it lies in [200,300).  `start` is the probe start timestamp
and `elapsed` the measured wall time in milliseconds. -/
def probeCheck (start elapsed : Nat) (r : ProbeResult) : Check :=
  match r with
  | .failure msg =>
      { timestamp := start, statusCode := 0, responseTime := elapsed,
        success := false, error := msg }
  | .completed status =>
      { timestamp := start, statusCode := status, responseTime := elapsed,
        success := decide (200 ≤ status) && decide (status < 300), error := "" }

/-- History append with eviction (monitor.go lines 310-315): append,
then if the length exceeds MaxCheckHistory keep only the most recent
MaxCheckHistory entries. -/
def appendCheck (maxHist : Nat) (checks : List Check) (c : Check) : List Check :=
  if maxHist < (checks ++ [c]).length then
    (checks ++ [c]).drop ((checks ++ [c]).length - maxHist)
  else checks ++ [c]

/-- checkInstance (monitor.go lines 280-322): build the Check for this
probe outcome and append it to the endpoint's history with eviction. -/
def checkInstance (maxHist start elapsed : Nat) (r : ProbeResult) (inst : Instance) :
    Instance :=
  { inst with checks := appendCheck maxHist inst.checks (probeCheck start elapsed r) }

/-- checkAll (monitor.go lines 258-278): probe every instance of the
snapshot (the per-endpoint probe outcomes and timings are supplied as
functions of the instance), then broadcast unconditionally.  The second
component records that the broadcast at line 277 is reached on every
cycle. -/
def checkAll (maxHist : Nat) (start : Nat) (elapsed : Instance → Nat)
    (probe : Instance → ProbeResult) (insts : List Instance) :
    List Instance × Bool :=
  (insts.map (fun i => checkInstance maxHist start (elapsed i) (probe i) i), true)

/-- calculateUptime (monitor.go lines 454-467).  The Go float64
arithmetic is modelled over the rationals: the computed expression is
literally `(successful / total) * 100`. -/
def calculateUptime (checks : List Check) : ℚ :=
  if checks.length = 0 then 0
  else ((checks.countP (fun c => c.success) : ℚ) / (checks.length : ℚ)) * 100

/-- calculateAvgResponseTime (monitor.go lines 469-480): integer
division of the sum of response times by the count. -/
def calculateAvgResponseTime (checks : List Check) : Nat :=
  if checks.length = 0 then 0
  else (checks.map (fun c => c.responseTime)).sum / checks.length

/-- InstanceData: the per-endpoint view built by GetInstancesData
(monitor.go lines 362-373). -/
structure InstanceData where
  group : String
  url : String
  instanceType : String
  cors : Bool
  groupOrder : Nat
  index : Nat
  checks : List Check
  uptime : ℚ
  avgResponseTime : Nat
  lastCheck : Option Check
  deriving DecidableEq, Repr

/-- The per-instance body of GetInstancesData (monitor.go lines
377-404): derived metrics are computed fresh from the history; lastCheck
is the final history entry when the history is nonempty. -/
def instanceData (inst : Instance) : InstanceData :=
  { group := inst.group, url := inst.url, instanceType := inst.instanceType,
    cors := inst.cors, groupOrder := inst.groupOrder, index := inst.index,
    checks := inst.checks,
    uptime := calculateUptime inst.checks,
    avgResponseTime := calculateAvgResponseTime inst.checks,
    lastCheck := if inst.checks.length = 0 then none else inst.checks.getLast? }

/-- GetInstancesData (monitor.go lines 358-407). -/
def getInstancesData (insts : List Instance) : List InstanceData :=
  insts.map instanceData

/-!  Specification-side description of the reconciliation walk: the flat
list of (group, url, type, cors, groupOrder) items visited by the two
nested loops, in visit order.  This is the "URLs listed in the newly
fetched configuration", used to compare the implementation against the
spec's step 4; the equivalence with the nested loops is proved below. -/

/-- One visited URL of the reconciliation walk, with its group metadata. -/
structure WalkItem where
  group : String
  url : String
  itype : String
  cors : Bool
  gOrder : Nat
  deriving DecidableEq, Repr

/-- A fresh Instance created for a walk item (monitor.go lines 107-114
and 133-140). -/
def freshInst (w : WalkItem) : Instance :=
  { group := w.group, url := w.url, instanceType := w.itype, cors := w.cors,
    groupOrder := w.gOrder, index := 0, checks := [] }

/-- In-place update of an existing Instance for a walk item (monitor.go
lines 101-103 and 127-129): only group, groupOrder and cors change. -/
def updateInst (ex : Instance) (w : WalkItem) : Instance :=
  { ex with group := w.group, groupOrder := w.gOrder, cors := w.cors }

/-- Folding the walk items over the URL map: reuse-and-delete on a hit,
fresh instance on a miss.  Returns the leftover map and the produced
instances in walk order. -/
def applyItems : UrlMap → List WalkItem → UrlMap × List Instance
  | m, [] => (m, [])
  | m, w :: rest =>
    match mapLookup m w.url with
    | some ex =>
        let p := applyItems (mapErase m w.url) rest
        (p.1, updateInst ex w :: p.2)
    | none =>
        let p := applyItems m rest
        (p.1, freshInst w :: p.2)

/-- The walk items contributed by one group. -/
def groupItems (grp ity : String) (cors : Bool) (g : Nat) (urls : List String) :
    List WalkItem :=
  urls.map (fun u => { group := grp, url := u, itype := ity, cors := cors, gOrder := g })

/-- Walk items of the API section, threading the group counter. -/
def apiItems (api : List (String × ApiGroupDetail)) :
    List String → Nat → List WalkItem × Nat
  | [], g => ([], g)
  | grp :: rest, g =>
    match lookupA api grp with
    | some d =>
        let p := apiItems api rest (g + 1)
        (groupItems grp "api" d.cors g d.urls ++ p.1, p.2)
    | none => apiItems api rest g

/-- Walk items of the UI section, threading the group counter. -/
def uiItems (ui : List (String × List String)) :
    List String → Nat → List WalkItem × Nat
  | [], g => ([], g)
  | grp :: rest, g =>
    match lookupA ui grp with
    | some urls =>
        let p := uiItems ui rest (g + 1)
        (groupItems grp "ui" false g urls ++ p.1, p.2)
    | none => uiItems ui rest g

/-- All walk items of one reconciliation: API groups first, then UI
groups, sharing one group counter starting at 0. -/
def walkItems (data : InstancesJSON) (apiOrder uiOrder : List String) :
    List WalkItem :=
  let p1 := apiItems data.api apiOrder 0
  p1.1 ++ (uiItems data.ui uiOrder p1.2).1

/-- The URLs listed by the new configuration, in walk order. -/
def walkURLs (data : InstancesJSON) (apiOrder uiOrder : List String) : List String :=
  (walkItems data apiOrder uiOrder).map (fun w => w.url)

/-!  Equivalence of the nested group loops with the flat walk. -/

theorem applyItems_append (m : UrlMap) (ws1 ws2 : List WalkItem) :
    applyItems m (ws1 ++ ws2) =
      ((applyItems (applyItems m ws1).1 ws2).1,
        (applyItems m ws1).2 ++ (applyItems (applyItems m ws1).1 ws2).2) := by
  induction ws1 generalizing m with
  | nil => simp [applyItems]
  | cons w rest ih =>
    simp only [List.cons_append, applyItems]
    cases mapLookup m w.url with
    | some ex => simp [ih]
    | none => simp [ih]

theorem walkGroupUrls_eq (grp ity : String) (cors : Bool) (g : Nat)
    (urls : List String) (m : UrlMap) (acc : List Instance) :
    walkGroupUrls grp ity cors g urls m acc =
      ((applyItems m (groupItems grp ity cors g urls)).1,
        acc ++ (applyItems m (groupItems grp ity cors g urls)).2) := by
  induction urls generalizing m acc with
  | nil => simp [walkGroupUrls, groupItems, applyItems]
  | cons u rest ih =>
    simp only [walkGroupUrls, groupItems, List.map_cons, applyItems]
    cases h : mapLookup m u with
    | some ex => simp [h, ih, updateInst, groupItems]
    | none => simp [h, ih, freshInst, groupItems]

theorem processApiGroups_eq (api : List (String × ApiGroupDetail))
    (order : List String) (m : UrlMap) (acc : List Instance) (g : Nat) :
    processApiGroups api order m acc g =
      ((applyItems m (apiItems api order g).1).1,
        acc ++ (applyItems m (apiItems api order g).1).2,
        (apiItems api order g).2) := by
  induction order generalizing m acc g with
  | nil => simp [processApiGroups, apiItems, applyItems]
  | cons grp rest ih =>
    simp only [processApiGroups, apiItems]
    cases h : lookupA api grp with
    | some d => simp [h, walkGroupUrls_eq, ih, applyItems_append]
    | none => simp [h, ih]

theorem processUIGroups_eq (ui : List (String × List String))
    (order : List String) (m : UrlMap) (acc : List Instance) (g : Nat) :
    processUIGroups ui order m acc g =
      ((applyItems m (uiItems ui order g).1).1,
        acc ++ (applyItems m (uiItems ui order g).1).2,
        (uiItems ui order g).2) := by
  induction order generalizing m acc g with
  | nil => simp [processUIGroups, uiItems, applyItems]
  | cons grp rest ih =>
    simp only [processUIGroups, uiItems]
    cases h : lookupA ui grp with
    | some urls => simp [h, walkGroupUrls_eq, ih, applyItems_append]
    | none => simp [h, ih]

theorem reconcileCore_eq (data : InstancesJSON) (apiOrder uiOrder : List String)
    (old : List Instance) :
    reconcileCore data apiOrder uiOrder old =
      applyItems (buildMap old) (walkItems data apiOrder uiOrder) := by
  simp [reconcileCore, processApiGroups_eq, processUIGroups_eq, walkItems,
    applyItems_append]

/-!  Lemmas about the URL map. -/

/-- Well-formedness of a URL map: every entry's value has the entry's
key as its url.  buildMap establishes this and the walk preserves it. -/
def MapWF (m : UrlMap) : Prop :=
  ∀ p ∈ m, (p.2 : Instance).url = p.1

theorem mapWF_nil : MapWF [] := by
  intro p hp; cases hp

theorem mapWF_erase {m : UrlMap} (h : MapWF m) (k : String) : MapWF (mapErase m k) := by
  intro p hp
  exact h p (List.mem_of_mem_filter hp)

theorem mapWF_insert {m : UrlMap} (h : MapWF m) (v : Instance) :
    MapWF (mapInsert m v.url v) := by
  intro p hp
  rcases List.mem_append.1 hp with h1 | h1
  · exact mapWF_erase h _ p h1
  · rcases List.mem_singleton.1 h1 with rfl
    rfl

theorem mapWF_buildMap (l : List Instance) : MapWF (buildMap l) := by
  have key : ∀ (l : List Instance) (m : UrlMap), MapWF m →
      MapWF (l.foldl (fun m i => mapInsert m i.url i) m) := by
    intro l
    induction l with
    | nil => intro m hm; exact hm
    | cons i t ih =>
      intro m hm
      exact ih _ (mapWF_insert hm i)
  exact key l [] mapWF_nil

theorem mapLookup_wf {m : UrlMap} (h : MapWF m) {u : String} {ex : Instance}
    (hl : mapLookup m u = some ex) : ex.url = u := by
  induction m with
  | nil => cases hl
  | cons p t ih =>
    by_cases hk : p.1 = u
    · have : some p.2 = some ex := by
        simpa [mapLookup, lookupA, hk] using hl
      cases this
      rw [h p (List.mem_cons_self p t)]
      exact hk
    · have hl' : mapLookup t u = some ex := by
        simpa [mapLookup, lookupA, hk] using hl
      exact ih (fun q hq => h q (List.mem_cons_of_mem p hq)) hl'

theorem mapErase_cons_self {p : String × Instance} {t : UrlMap} {k : String}
    (hp : p.1 = k) : mapErase (p :: t) k = mapErase t k := by
  simp [mapErase, List.filter_cons, hp]

theorem mapErase_cons_ne {p : String × Instance} {t : UrlMap} {k : String}
    (hp : p.1 ≠ k) : mapErase (p :: t) k = p :: mapErase t k := by
  simp [mapErase, List.filter_cons, hp]

theorem mapLookup_erase_ne (m : UrlMap) {k u : String} (h : k ≠ u) :
    mapLookup (mapErase m k) u = mapLookup m u := by
  induction m with
  | nil => rfl
  | cons p t ih =>
    by_cases hp : p.1 = k
    · rw [mapErase_cons_self hp, ih]
      have hpu : p.1 ≠ u := by rw [hp]; exact h
      simp [mapLookup, lookupA, hpu]
    · rw [mapErase_cons_ne hp]
      by_cases hu : p.1 = u
      · simp [mapLookup, lookupA, hu]
      · simpa [mapLookup, lookupA, hu] using ih

theorem mapLookup_erase_self (m : UrlMap) (k : String) :
    mapLookup (mapErase m k) k = none := by
  induction m with
  | nil => rfl
  | cons p t ih =>
    by_cases hp : p.1 = k
    · rw [mapErase_cons_self hp]; exact ih
    · rw [mapErase_cons_ne hp]
      simpa [mapLookup, lookupA, hp] using ih

/-!  Field-projection lemmas about the walk result and index assignment. -/

/-- An Instance with its index zeroed; used to express that index
assignment changes nothing but the index. -/
def stripIndex (i : Instance) : Instance :=
  { i with index := 0 }

theorem assignIndexesFrom_strip (n : Nat) (l : List Instance) :
    (assignIndexesFrom n l).map stripIndex = l.map stripIndex := by
  induction l generalizing n with
  | nil => rfl
  | cons i t ih => simp [assignIndexesFrom, stripIndex, ih]

theorem assignIndexes_strip (l : List Instance) :
    (assignIndexes l).map stripIndex = l.map stripIndex :=
  assignIndexesFrom_strip 0 l

theorem assignIndexesFrom_map_index (n : Nat) (l : List Instance) :
    (assignIndexesFrom n l).map (fun i => i.index) = List.range' (n + 1) l.length := by
  induction l generalizing n with
  | nil => rfl
  | cons i t ih => simp [assignIndexesFrom, List.range'_succ, ih]

theorem assignIndexes_map_index (l : List Instance) :
    (assignIndexes l).map (fun i => i.index) = List.range' 1 l.length :=
  assignIndexesFrom_map_index 0 l

theorem assignIndexes_length (l : List Instance) :
    (assignIndexes l).length = l.length := by
  have h := congrArg List.length (assignIndexes_strip l)
  simpa using h

theorem applyItems_map_url {m : UrlMap} (hm : MapWF m) (ws : List WalkItem) :
    (applyItems m ws).2.map (fun i => i.url) = ws.map (fun w => w.url) := by
  induction ws generalizing m with
  | nil => rfl
  | cons w rest ih =>
    simp only [applyItems]
    cases h : mapLookup m w.url with
    | some ex =>
      have hu : ex.url = w.url := mapLookup_wf hm h
      simp [updateInst, hu, ih (mapWF_erase hm w.url)]
    | none =>
      simp [freshInst, ih hm]

theorem applyItems_map_groupPair (m : UrlMap) (ws : List WalkItem) :
    (applyItems m ws).2.map (fun i => (i.group, i.groupOrder)) =
      ws.map (fun w => (w.group, w.gOrder)) := by
  induction ws generalizing m with
  | nil => rfl
  | cons w rest ih =>
    simp only [applyItems]
    cases h : mapLookup m w.url with
    | some ex => simp [updateInst, ih]
    | none => simp [freshInst, ih]

theorem map_url_strip (l : List Instance) :
    (l.map stripIndex).map (fun i => i.url) = l.map (fun i => i.url) := by
  simp [List.map_map, stripIndex, Function.comp]

theorem assignIndexes_map_url (l : List Instance) :
    (assignIndexes l).map (fun i => i.url) = l.map (fun i => i.url) := by
  have h := congrArg (List.map (fun i => Instance.url i)) (assignIndexes_strip l)
  simpa [List.map_map, Function.comp, stripIndex] using h

theorem assignIndexes_map_groupPair (l : List Instance) :
    (assignIndexes l).map (fun i => (i.group, i.groupOrder)) =
      l.map (fun i => (i.group, i.groupOrder)) := by
  have h := congrArg (List.map (fun i => (Instance.group i, Instance.groupOrder i)))
    (assignIndexes_strip l)
  simpa [List.map_map, Function.comp, stripIndex] using h

/-!  Walk lemmas for the reconciliation claims. -/

theorem applyItems_mem_update {m : UrlMap} (hm : MapWF m) {u : String} {ex : Instance}
    (hl : mapLookup m u = some ex) (ws : List WalkItem)
    (hu : u ∈ ws.map (fun w => w.url)) :
    ∃ w ∈ ws, w.url = u ∧ updateInst ex w ∈ (applyItems m ws).2 := by
  induction ws generalizing m with
  | nil => simp at hu
  | cons w rest ih =>
    by_cases hw : w.url = u
    · have hlw : mapLookup m w.url = some ex := by rw [hw]; exact hl
      refine ⟨w, List.mem_cons_self w rest, hw, ?_⟩
      simp only [applyItems, hlw]
      exact List.mem_cons_self _ _
    · have hu' : u ∈ rest.map (fun w => w.url) := by
        rcases List.mem_map.1 hu with ⟨w', hw', rfl⟩
        rcases List.mem_cons.1 hw' with rfl | hw'
        · exact absurd rfl hw
        · exact List.mem_map.2 ⟨w', hw', rfl⟩
      cases hlw : mapLookup m w.url with
      | some ex0 =>
        have hl' : mapLookup (mapErase m w.url) u = some ex := by
          rw [mapLookup_erase_ne m hw]; exact hl
        rcases ih (mapWF_erase hm w.url) hl' hu' with ⟨w', hw', hurl, hmem⟩
        refine ⟨w', List.mem_cons_of_mem w hw', hurl, ?_⟩
        simp only [applyItems, hlw]
        exact List.mem_cons_of_mem _ hmem
      | none =>
        rcases ih hm hl hu' with ⟨w', hw', hurl, hmem⟩
        refine ⟨w', List.mem_cons_of_mem w hw', hurl, ?_⟩
        simp only [applyItems, hlw]
        exact List.mem_cons_of_mem _ hmem

theorem applyItems_filter_none {m : UrlMap} (hm : MapWF m) {u : String}
    (hl : mapLookup m u = none) (ws : List WalkItem) :
    ((applyItems m ws).2.filter (fun i => i.url == u)).map (fun i => i.checks) =
      List.replicate (ws.filter (fun w => w.url == u)).length ([] : List Check) := by
  induction ws generalizing m with
  | nil => simp [applyItems]
  | cons w rest ih =>
    by_cases hw : w.url = u
    · have hlw : mapLookup m w.url = none := by rw [hw]; exact hl
      simp only [applyItems, hlw]
      simp [List.filter_cons, freshInst, hw, List.replicate_succ, ih hm hl]
    · cases hlw : mapLookup m w.url with
      | some ex0 =>
        have hurl : ex0.url = w.url := mapLookup_wf hm hlw
        have hl' : mapLookup (mapErase m w.url) u = none := by
          rw [mapLookup_erase_ne m hw]; exact hl
        simp only [applyItems, hlw]
        simp [List.filter_cons, updateInst, hurl, hw, ih (mapWF_erase hm w.url) hl']
      | none =>
        simp only [applyItems, hlw]
        simp [List.filter_cons, freshInst, hw, ih hm hl]

theorem applyItems_filter_some {m : UrlMap} (hm : MapWF m) {u : String} {ex : Instance}
    (hl : mapLookup m u = some ex) (ws : List WalkItem) :
    ((applyItems m ws).2.filter (fun i => i.url == u)).map (fun i => i.checks) =
      (match ws.filter (fun w => w.url == u) with
       | [] => ([] : List (List Check))
       | _ :: rest => ex.checks :: List.replicate rest.length []) := by
  induction ws generalizing m with
  | nil => simp [applyItems]
  | cons w rest ih =>
    by_cases hw : w.url = u
    · have hlw : mapLookup m w.url = some ex := by rw [hw]; exact hl
      have hurl : ex.url = u := mapLookup_wf hm hl
      have hl' : mapLookup (mapErase m u) u = none := mapLookup_erase_self m u
      simp only [applyItems, hlw]
      simp [List.filter_cons, updateInst, hurl, hw,
        applyItems_filter_none (mapWF_erase hm u) hl' rest]
    · cases hlw : mapLookup m w.url with
      | some ex0 =>
        have hurl : ex0.url = w.url := mapLookup_wf hm hlw
        have hl' : mapLookup (mapErase m w.url) u = some ex := by
          rw [mapLookup_erase_ne m hw]; exact hl
        simp only [applyItems, hlw]
        simp [List.filter_cons, updateInst, hurl, hw, ih (mapWF_erase hm w.url) hl']
      | none =>
        simp only [applyItems, hlw]
        simp [List.filter_cons, freshInst, hw, ih hm hl]

theorem assignIndexesFrom_filter_checks (n : Nat) (l : List Instance) (u : String) :
    ((assignIndexesFrom n l).filter (fun i => i.url == u)).map (fun i => i.checks) =
      (l.filter (fun i => i.url == u)).map (fun i => i.checks) := by
  induction l generalizing n with
  | nil => rfl
  | cons i t ih =>
    by_cases hi : i.url = u
    · simp [assignIndexesFrom, List.filter_cons, hi, ih]
    · simp [assignIndexesFrom, List.filter_cons, hi, ih]

theorem assignIndexes_filter_checks (l : List Instance) (u : String) :
    ((assignIndexes l).filter (fun i => i.url == u)).map (fun i => i.checks) =
      (l.filter (fun i => i.url == u)).map (fun i => i.checks) :=
  assignIndexesFrom_filter_checks 0 l u

theorem reconcile_fst (data : InstancesJSON) (ao uo : List String)
    (old : List Instance) :
    (reconcile data ao uo old).1 =
      assignIndexes (applyItems (buildMap old) (walkItems data ao uo)).2 := by
  simp [reconcile, reconcileCore_eq]

/-!  Claim theorems. -/

/-- C1: a URL present in the current registry (looked up through the
reconciliation's URL map, where the last instance wins on duplicates)
and also listed in the new configuration keeps its check history exactly
(same entries, same order) as well as its url and kind; its group,
groupOrder and cors are set from the configuration's walk item for that
URL. -/
theorem reconcile_preserves_history (data : InstancesJSON) (ao uo : List String)
    (old : List Instance) (u : String) (ex : Instance)
    (hl : mapLookup (buildMap old) u = some ex)
    (hu : u ∈ walkURLs data ao uo) :
    ∃ inst' ∈ (reconcile data ao uo old).1,
      inst'.url = u ∧ inst'.checks = ex.checks ∧ inst'.instanceType = ex.instanceType ∧
      ∃ w ∈ walkItems data ao uo, w.url = u ∧
        inst'.group = w.group ∧ inst'.groupOrder = w.gOrder ∧ inst'.cors = w.cors := by
  have hm := mapWF_buildMap old
  have hexu : ex.url = u := mapLookup_wf hm hl
  rcases applyItems_mem_update hm hl (walkItems data ao uo) hu with ⟨w, hwmem, hwurl, hmem⟩
  have hstrip := assignIndexes_strip (applyItems (buildMap old) (walkItems data ao uo)).2
  have hin : stripIndex (updateInst ex w) ∈
      ((applyItems (buildMap old) (walkItems data ao uo)).2.map stripIndex) :=
    List.mem_map_of_mem stripIndex hmem
  rw [← hstrip] at hin
  rcases List.mem_map.1 hin with ⟨y, hy, hysx⟩
  have hurl : y.url = u := by
    have := congrArg Instance.url hysx
    simpa [stripIndex, updateInst, hexu] using this
  have hchecks : y.checks = ex.checks := by
    have := congrArg Instance.checks hysx
    simpa [stripIndex, updateInst] using this
  have htype : y.instanceType = ex.instanceType := by
    have := congrArg Instance.instanceType hysx
    simpa [stripIndex, updateInst] using this
  have hgroup : y.group = w.group := by
    have := congrArg Instance.group hysx
    simpa [stripIndex, updateInst] using this
  have horder : y.groupOrder = w.gOrder := by
    have := congrArg Instance.groupOrder hysx
    simpa [stripIndex, updateInst] using this
  have hcors : y.cors = w.cors := by
    have := congrArg Instance.cors hysx
    simpa [stripIndex, updateInst] using this
  exact ⟨y, by rw [reconcile_fst]; exact hy,
    hurl, hchecks, htype, w, hwmem, hwurl, hgroup, horder, hcors⟩

/-- Witness for C1: the URL u moves from group g1 to group g2 with a new
CORS flag; its one-entry history must survive. -/
theorem reconcile_preserves_history_witness :
    ∃ inst' ∈ (reconcile ⟨[("g2", ⟨["u"], true⟩)], []⟩ ["g2"] []
        [⟨"g1", "u", "api", false, 0, 1, [⟨0, 200, 5, true, ""⟩]⟩]).1,
      inst'.url = "u" ∧
      inst'.checks = (⟨"g1", "u", "api", false, 0, 1, [⟨0, 200, 5, true, ""⟩]⟩ : Instance).checks ∧
      inst'.instanceType =
        (⟨"g1", "u", "api", false, 0, 1, [⟨0, 200, 5, true, ""⟩]⟩ : Instance).instanceType ∧
      ∃ w ∈ walkItems ⟨[("g2", ⟨["u"], true⟩)], []⟩ ["g2"] [], w.url = "u" ∧
        inst'.group = w.group ∧ inst'.groupOrder = w.gOrder ∧ inst'.cors = w.cors :=
  reconcile_preserves_history ⟨[("g2", ⟨["u"], true⟩)], []⟩ ["g2"] []
    [⟨"g1", "u", "api", false, 0, 1, [⟨0, 200, 5, true, ""⟩]⟩] "u"
    ⟨"g1", "u", "api", false, 0, 1, [⟨0, 200, 5, true, ""⟩]⟩ (by decide) (by decide)

/-- C3: after a successful reconciliation the registry lists exactly the
URLs of the new configuration, in walk order; display indexes are the
contiguous sequence 1..N in list order; consequently a URL is tracked
afterwards iff it appears in the new configuration. -/
theorem reconcile_exact_urls_indexes (data : InstancesJSON) (ao uo : List String)
    (old : List Instance) :
    (reconcile data ao uo old).1.map (fun i => i.url) = walkURLs data ao uo ∧
    (reconcile data ao uo old).1.map (fun i => i.index) =
      List.range' 1 (walkURLs data ao uo).length ∧
    (∀ u, (∃ i ∈ (reconcile data ao uo old).1, i.url = u) ↔ u ∈ walkURLs data ao uo) := by
  have hm := mapWF_buildMap old
  have hurls : (reconcile data ao uo old).1.map (fun i => i.url) = walkURLs data ao uo := by
    rw [reconcile_fst, assignIndexes_map_url, applyItems_map_url hm]
    rfl
  refine ⟨hurls, ?_, ?_⟩
  · rw [reconcile_fst, assignIndexes_map_index]
    have hlen : (applyItems (buildMap old) (walkItems data ao uo)).2.length =
        (walkURLs data ao uo).length := by
      have h1 := congrArg List.length (applyItems_map_url hm (walkItems data ao uo))
      simpa [walkURLs] using h1
    rw [hlen]
  · intro u
    rw [← hurls]
    constructor
    · rintro ⟨i, hi, rfl⟩
      exact List.mem_map_of_mem _ hi
    · intro h
      rcases List.mem_map.1 h with ⟨i, hi, rfl⟩
      exact ⟨i, hi, rfl⟩

/-- C10: per URL, the reconciled registry has one Instance per walk
occurrence of that URL; the first occurrence carries the existing
instance's history when the URL was tracked (the map's last instance for
that URL) and an empty history otherwise, and every later occurrence is
a fresh Instance with empty history. -/
theorem reconcile_duplicate_occurrences (data : InstancesJSON) (ao uo : List String)
    (old : List Instance) (u : String) :
    ((reconcile data ao uo old).1.filter (fun i => i.url == u)).length =
      ((walkItems data ao uo).filter (fun w => w.url == u)).length ∧
    (((reconcile data ao uo old).1.filter (fun i => i.url == u)).map (fun i => i.checks)) =
      (match (walkItems data ao uo).filter (fun w => w.url == u),
             mapLookup (buildMap old) u with
       | [], _ => ([] : List (List Check))
       | _ :: rest, some ex => ex.checks :: List.replicate rest.length []
       | _ :: rest, none => [] :: List.replicate rest.length []) := by
  have hm := mapWF_buildMap old
  have hmain : (((reconcile data ao uo old).1.filter (fun i => i.url == u)).map
      (fun i => i.checks)) =
      (match (walkItems data ao uo).filter (fun w => w.url == u),
             mapLookup (buildMap old) u with
       | [], _ => ([] : List (List Check))
       | _ :: rest, some ex => ex.checks :: List.replicate rest.length []
       | _ :: rest, none => [] :: List.replicate rest.length []) := by
    rw [reconcile_fst, assignIndexes_filter_checks]
    cases hlk : mapLookup (buildMap old) u with
    | some ex =>
      rw [applyItems_filter_some hm hlk]
      cases (walkItems data ao uo).filter (fun w => w.url == u) <;> rfl
    | none =>
      rw [applyItems_filter_none hm hlk]
      cases (walkItems data ao uo).filter (fun w => w.url == u) with
      | nil => rfl
      | cons a t => simp [List.replicate_succ]
  refine ⟨?_, hmain⟩
  have hlen := congrArg List.length hmain
  rw [List.length_map] at hlen
  rw [hlen]
  cases (walkItems data ao uo).filter (fun w => w.url == u) with
  | nil => cases mapLookup (buildMap old) u <;> rfl
  | cons a t => cases mapLookup (buildMap old) u <;> simp

/-!  Lemmas for the ordering extractor (C5). -/

theorem prefixAt_iff (pat s : List Char) : prefixAt pat s = true ↔ pat <+: s := by
  induction pat generalizing s with
  | nil => simp [prefixAt, List.nil_prefix]
  | cons a as ih =>
    cases s with
    | nil => simp [prefixAt, List.prefix_nil]
    | cons b bs => simp [prefixAt, List.cons_prefix_cons, ih]

theorem strIndexOf_some (s pat : List Char) :
    ∀ i : Nat, strIndexOf s pat = some i →
      pat <+: s.drop i ∧ ∀ j, j < i → ¬ pat <+: s.drop j := by
  induction s with
  | nil =>
    intro i h
    by_cases hp : prefixAt pat [] = true
    · rw [strIndexOf, if_pos hp] at h
      cases h
      exact ⟨(prefixAt_iff pat []).1 hp, fun j hj => absurd hj (by omega)⟩
    · rw [strIndexOf, if_neg hp] at h
      cases h
  | cons c t ih =>
    intro i h
    by_cases hp : prefixAt pat (c :: t) = true
    · rw [strIndexOf, if_pos hp] at h
      cases h
      exact ⟨by simpa using (prefixAt_iff _ _).1 hp, fun j hj => absurd hj (by omega)⟩
    · rw [strIndexOf, if_neg hp] at h
      cases hs : strIndexOf t pat with
      | none => rw [hs] at h; cases h
      | some i0 =>
        rw [hs] at h
        simp only [Option.map_some'] at h
        cases h
        rcases ih i0 hs with ⟨h1, h2⟩
        refine ⟨by simpa using h1, ?_⟩
        intro j hj
        cases j with
        | zero =>
          simp only [List.drop_zero]
          intro hc
          exact hp ((prefixAt_iff _ _).2 hc)
        | succ j0 =>
          simpa using h2 j0 (by omega)

theorem strIndexOf_of_occursAt (s pat : List Char) :
    ∀ i : Nat, pat <+: s.drop i → (∀ j, j < i → ¬ pat <+: s.drop j) →
      strIndexOf s pat = some i := by
  induction s with
  | nil =>
    intro i hocc hmin
    have hpnil : pat = [] := List.prefix_nil.1 (by simpa using hocc)
    subst hpnil
    have hi : i = 0 := by
      by_contra hne
      exact hmin 0 (by omega) List.nil_prefix
    subst hi
    rw [strIndexOf, if_pos (by simp [prefixAt])]
  | cons c t ih =>
    intro i hocc hmin
    cases i with
    | zero =>
      have hp : prefixAt pat (c :: t) = true := (prefixAt_iff _ _).2 (by simpa using hocc)
      rw [strIndexOf, if_pos hp]
    | succ i0 =>
      have hp : ¬ prefixAt pat (c :: t) = true := by
        intro hc
        exact hmin 0 (by omega) (by simpa using (prefixAt_iff _ _).1 hc)
      rw [strIndexOf, if_neg hp]
      have h1 : pat <+: t.drop i0 := by simpa using hocc
      have h2 : ∀ j, j < i0 → ¬ pat <+: t.drop j := by
        intro j hj hc
        exact hmin (j + 1) (by omega) (by simpa using hc)
      rw [ih i0 h1 h2]
      rfl

theorem strIndexOf_drop (s pat : List Char) (pos p : Nat)
    (h : strIndexOf s pat = some p) (hge : pos ≤ p) :
    strIndexOf (s.drop pos) pat = some (p - pos) := by
  rcases strIndexOf_some s pat p h with ⟨hocc, hmin⟩
  apply strIndexOf_of_occursAt
  · rw [List.drop_drop]
    have he : pos + (p - pos) = p := by omega
    rw [he]
    exact hocc
  · intro j hj
    rw [List.drop_drop]
    exact hmin (pos + j) (by omega)

theorem findEarliestAux_min (s : List Char) (pos : Nat) (posOf : String → Nat)
    (ks : List String) :
    ∀ b : String × Nat,
    (∀ k ∈ ks, (strIndexOf (s.drop pos) (quoteKey k)).map (· + pos) = some (posOf k)) →
    ∃ r, findEarliestAux s pos ks (some b) = some r ∧
      (r = b ∨ (r.1 ∈ ks ∧ r.2 = posOf r.1)) ∧ r.2 ≤ b.2 ∧ ∀ k ∈ ks, r.2 ≤ posOf k := by
  induction ks with
  | nil =>
    intro b _
    exact ⟨b, rfl, Or.inl rfl, le_refl _, by simp⟩
  | cons k ks0 ih =>
    intro b hcur
    have hk := hcur k (List.mem_cons_self _ _)
    have hcur0 : ∀ k' ∈ ks0,
        (strIndexOf (s.drop pos) (quoteKey k')).map (· + pos) = some (posOf k') :=
      fun k' hk' => hcur k' (List.mem_cons_of_mem _ hk')
    by_cases hlt : posOf k < b.2
    · rcases ih (k, posOf k) hcur0 with ⟨r, hr, hmem, hle, hall⟩
      refine ⟨r, ?_, ?_, ?_, ?_⟩
      · simp only [findEarliestAux, hk]
        rw [if_pos hlt]
        exact hr
      · rcases hmem with rfl | ⟨h1, h2⟩
        · exact Or.inr ⟨List.mem_cons_self _ _, rfl⟩
        · exact Or.inr ⟨List.mem_cons_of_mem _ h1, h2⟩
      · exact le_trans hle (le_of_lt hlt)
      · intro k' hk'
        rcases List.mem_cons.1 hk' with rfl | hk'
        · exact hle
        · exact hall k' hk'
    · rcases ih b hcur0 with ⟨r, hr, hmem, hle, hall⟩
      refine ⟨r, ?_, ?_, hle, ?_⟩
      · simp only [findEarliestAux, hk]
        rw [if_neg hlt]
        exact hr
      · rcases hmem with rfl | ⟨h1, h2⟩
        · exact Or.inl rfl
        · exact Or.inr ⟨List.mem_cons_of_mem _ h1, h2⟩
      · intro k' hk'
        rcases List.mem_cons.1 hk' with rfl | hk'
        · exact le_trans hle (by omega)
        · exact hall k' hk'

theorem findEarliest_min (s : List Char) (pos : Nat) (posOf : String → Nat)
    (k0 : String) (ks0 : List String)
    (hcur : ∀ k ∈ k0 :: ks0,
      (strIndexOf (s.drop pos) (quoteKey k)).map (· + pos) = some (posOf k)) :
    ∃ r, findEarliest s pos (k0 :: ks0) = some r ∧ r.1 ∈ k0 :: ks0 ∧
      r.2 = posOf r.1 ∧ ∀ k ∈ k0 :: ks0, r.2 ≤ posOf k := by
  have hk := hcur k0 (List.mem_cons_self _ _)
  have hcur0 : ∀ k' ∈ ks0,
      (strIndexOf (s.drop pos) (quoteKey k')).map (· + pos) = some (posOf k') :=
    fun k' hk' => hcur k' (List.mem_cons_of_mem _ hk')
  rcases findEarliestAux_min s pos posOf ks0 (k0, posOf k0) hcur0 with ⟨r, hr, hmem, hle, hall⟩
  refine ⟨r, ?_, ?_, ?_, ?_⟩
  · unfold findEarliest
    simp only [findEarliestAux, hk]
    exact hr
  · rcases hmem with rfl | ⟨h1, _⟩
    · exact List.mem_cons_self _ _
    · exact List.mem_cons_of_mem _ h1
  · rcases hmem with rfl | ⟨_, h2⟩
    · rfl
    · exact h2
  · intro k' hk'
    rcases List.mem_cons.1 hk' with rfl | hk'
    · exact hle
    · exact hall k' hk'

theorem scanKeys_sorted (s : List Char) (posOf : String → Nat) :
    ∀ (n : Nat) (ks : List String) (pos : Nat),
    n = ks.length → ks.Nodup →
    (∀ k ∈ ks, k ≠ "") →
    (∀ k ∈ ks, strIndexOf s (quoteKey k) = some (posOf k)) →
    (∀ k ∈ ks, pos ≤ posOf k) →
    (∀ a ∈ ks, ∀ b ∈ ks, a ≠ b → posOf a ≠ posOf b) →
    (∀ a ∈ ks, ∀ b ∈ ks, a ≠ b → posOf a < posOf b →
      posOf a + a.toList.length + 2 ≤ posOf b) →
    (scanKeys s n ks pos).Perm ks ∧
      (scanKeys s n ks pos).Pairwise (fun a b => posOf a < posOf b) := by
  intro n
  induction n with
  | zero =>
    intro ks pos hlen _ _ _ _ _ _
    have hks : ks = [] := List.length_eq_zero.1 hlen.symm
    subst hks
    simp [scanKeys]
  | succ n ih =>
    intro ks pos hlen hnd hne hocc hpos hdist hgap
    cases ks with
    | nil => simp at hlen
    | cons k0 ks0 =>
      have hcur : ∀ k ∈ k0 :: ks0,
          (strIndexOf (s.drop pos) (quoteKey k)).map (· + pos) = some (posOf k) := by
        intro k hk
        rw [strIndexOf_drop s (quoteKey k) pos (posOf k) (hocc k hk) (hpos k hk)]
        simp only [Option.map_some']
        have hp := hpos k hk
        congr 1
        omega
      rcases findEarliest_min s pos posOf k0 ks0 hcur with ⟨r, hr, hrmem, hrpos, hrmin⟩
      have hner : ¬ r.1 = "" := hne r.1 hrmem
      have hstep : scanKeys s (n + 1) (k0 :: ks0) pos =
          r.1 :: scanKeys s n ((k0 :: ks0).erase r.1) (r.2 + r.1.toList.length + 2) := by
        simp only [scanKeys, hr]
        rw [if_neg hner]
      have hlen2 : n = ((k0 :: ks0).erase r.1).length := by
        rw [List.length_erase_of_mem hrmem]
        simp only [List.length_cons] at hlen ⊢
        omega
      have hnd2 : ((k0 :: ks0).erase r.1).Nodup := hnd.erase r.1
      have hmem2 : ∀ k ∈ (k0 :: ks0).erase r.1, k ≠ r.1 ∧ k ∈ k0 :: ks0 :=
        fun k hk => (hnd.mem_erase_iff.1 hk)
      have hpos2 : ∀ k ∈ (k0 :: ks0).erase r.1, r.2 + r.1.toList.length + 2 ≤ posOf k := by
        intro k hk
        rcases hmem2 k hk with ⟨hkne, hkmem⟩
        have h1 : posOf r.1 ≤ posOf k := by
          have := hrmin k hkmem
          rwa [hrpos] at this
        have h2 : posOf r.1 ≠ posOf k :=
          hdist r.1 hrmem k hkmem (fun hc => hkne hc.symm)
        have h4 := hgap r.1 hrmem k hkmem (fun hc => hkne hc.symm)
          (lt_of_le_of_ne h1 h2)
        rw [hrpos]
        exact h4
      rcases ih ((k0 :: ks0).erase r.1) (r.2 + r.1.toList.length + 2) hlen2 hnd2
        (fun k hk => hne k (hmem2 k hk).2)
        (fun k hk => hocc k (hmem2 k hk).2)
        hpos2
        (fun a ha b hb => hdist a (hmem2 a ha).2 b (hmem2 b hb).2)
        (fun a ha b hb => hgap a (hmem2 a ha).2 b (hmem2 b hb).2)
        with ⟨hperm, hpair⟩
      rw [hstep]
      constructor
      · exact (hperm.cons r.1).trans (List.perm_cons_erase hrmem).symm
      · rw [List.pairwise_cons]
        refine ⟨?_, hpair⟩
        intro b hb
        have hbmem := hperm.mem_iff.1 hb
        rcases hmem2 b hbmem with ⟨hbne, hbm⟩
        have h1 : posOf r.1 ≤ posOf b := by
          have := hrmin b hbm
          rwa [hrpos] at this
        have h2 : posOf r.1 ≠ posOf b :=
          hdist r.1 hrmem b hbm (fun hc => hbne hc.symm)
        exact lt_of_le_of_ne h1 h2

/-- The section substring isolated by extractOrderFromJSON (monitor.go
lines 170-192): none when the quoted section name or the opening brace
is missing. -/
def sectionSub (jsonStr sec : List Char) : Option (List Char) :=
  match strIndexOf jsonStr ('"' :: sec ++ ['"']) with
  | none => none
  | some sectionStart =>
    match strIndexOf (jsonStr.drop sectionStart) ['{'] with
    | none => none
    | some b0 =>
      some ((jsonStr.drop (b0 + sectionStart)).take
        (1 + braceAdvance 1 (jsonStr.drop (b0 + sectionStart + 1))))

theorem extractOrder_eq (pk : List Char → List String) (jsonStr sec : List Char) :
    extractOrderFromJSON pk jsonStr sec =
      match sectionSub jsonStr sec with
      | none => []
      | some sj => scanKeys sj ((pk sj).dedup).length ((pk sj).dedup) 0 := by
  unfold extractOrderFromJSON sectionSub
  cases h1 : strIndexOf jsonStr ('"' :: sec ++ ['"']) with
  | none => rfl
  | some st =>
    cases h2 : strIndexOf (jsonStr.drop st) ['{'] with
    | none => simp [h2]
    | some b0 => simp [h2]

/-!  Group-order lemmas for C7. -/

/-- Adjacent-pair property of the final endpoint sequence: group order
is non-decreasing and strictly increases exactly when the group
changes. -/
def OrderStep (a b : WalkItem) : Prop :=
  a.gOrder ≤ b.gOrder ∧ (a.gOrder < b.gOrder ↔ a.group ≠ b.group)

theorem mem_of_getLastQ {α : Type} {l : List α} {x : α} (h : x ∈ l.getLast?) : x ∈ l := by
  rcases List.mem_getLast?_eq_getLast h with ⟨hne, rfl⟩
  exact List.getLast_mem hne

theorem mem_of_headQ {α : Type} {l : List α} {x : α} (h : x ∈ l.head?) : x ∈ l := by
  rw [List.eq_cons_of_mem_head? h]
  exact List.mem_cons_self _ _

theorem mem_groupItems {grp ity : String} {c : Bool} {g : Nat} {urls : List String}
    {w : WalkItem} (h : w ∈ groupItems grp ity c g urls) :
    w.group = grp ∧ w.gOrder = g := by
  rcases List.mem_map.1 h with ⟨u, _, rfl⟩
  exact ⟨rfl, rfl⟩

theorem chain_groupItems (grp ity : String) (c : Bool) (g : Nat) (urls : List String) :
    List.Chain' OrderStep (groupItems grp ity c g urls) := by
  induction urls with
  | nil => simp [groupItems]
  | cons u t ih =>
    cases t with
    | nil => simp [groupItems]
    | cons v t' =>
      refine List.Chain'.cons ⟨le_refl _, ?_⟩ (by simpa [groupItems] using ih)
      simp

theorem apiItems_props (api : List (String × ApiGroupDetail)) (ao : List String)
    (g : Nat) (h : ao.Nodup) :
    (∀ w ∈ (apiItems api ao g).1,
      w.group ∈ ao ∧ g ≤ w.gOrder ∧ w.gOrder < (apiItems api ao g).2) ∧
    g ≤ (apiItems api ao g).2 ∧
    List.Chain' OrderStep (apiItems api ao g).1 := by
  induction ao generalizing g with
  | nil => simp [apiItems]
  | cons grp rest ih =>
    rcases List.nodup_cons.1 h with ⟨hnotin, h'⟩
    cases hlk : lookupA api grp with
    | none =>
      rcases ih g h' with ⟨h1, h2, h3⟩
      simp only [apiItems, hlk]
      exact ⟨fun w hw => ⟨List.mem_cons_of_mem _ (h1 w hw).1, (h1 w hw).2.1, (h1 w hw).2.2⟩,
        h2, h3⟩
    | some d =>
      rcases ih (g + 1) h' with ⟨h1, h2, h3⟩
      simp only [apiItems, hlk]
      refine ⟨?_, by omega, ?_⟩
      · intro w hw
        rcases List.mem_append.1 hw with hw | hw
        · rcases mem_groupItems hw with ⟨hg, ho⟩
          exact ⟨by rw [hg]; exact List.mem_cons_self _ _, by omega, by
            have := h2; omega⟩
        · rcases h1 w hw with ⟨hg, ho, hb⟩
          exact ⟨List.mem_cons_of_mem _ hg, by omega, hb⟩
      · refine List.chain'_append.2 ⟨chain_groupItems grp "api" d.cors g d.urls, h3, ?_⟩
        intro x hx y hy
        rcases mem_groupItems (mem_of_getLastQ hx) with ⟨hxg, hxo⟩
        rcases h1 y (mem_of_headQ hy) with ⟨hyg, hyo, _⟩
        refine ⟨by omega, iff_of_true (by omega) ?_⟩
        rw [hxg]
        intro hc
        exact hnotin (hc ▸ hyg)

theorem uiItems_props (ui : List (String × List String)) (uo : List String)
    (g : Nat) (h : uo.Nodup) :
    (∀ w ∈ (uiItems ui uo g).1,
      w.group ∈ uo ∧ g ≤ w.gOrder ∧ w.gOrder < (uiItems ui uo g).2) ∧
    g ≤ (uiItems ui uo g).2 ∧
    List.Chain' OrderStep (uiItems ui uo g).1 := by
  induction uo generalizing g with
  | nil => simp [uiItems]
  | cons grp rest ih =>
    rcases List.nodup_cons.1 h with ⟨hnotin, h'⟩
    cases hlk : lookupA ui grp with
    | none =>
      rcases ih g h' with ⟨h1, h2, h3⟩
      simp only [uiItems, hlk]
      exact ⟨fun w hw => ⟨List.mem_cons_of_mem _ (h1 w hw).1, (h1 w hw).2.1, (h1 w hw).2.2⟩,
        h2, h3⟩
    | some urls =>
      rcases ih (g + 1) h' with ⟨h1, h2, h3⟩
      simp only [uiItems, hlk]
      refine ⟨?_, by omega, ?_⟩
      · intro w hw
        rcases List.mem_append.1 hw with hw | hw
        · rcases mem_groupItems hw with ⟨hg, ho⟩
          exact ⟨by rw [hg]; exact List.mem_cons_self _ _, by omega, by
            have := h2; omega⟩
        · rcases h1 w hw with ⟨hg, ho, hb⟩
          exact ⟨List.mem_cons_of_mem _ hg, by omega, hb⟩
      · refine List.chain'_append.2 ⟨chain_groupItems grp "ui" false g urls, h3, ?_⟩
        intro x hx y hy
        rcases mem_groupItems (mem_of_getLastQ hx) with ⟨hxg, hxo⟩
        rcases h1 y (mem_of_headQ hy) with ⟨hyg, hyo, _⟩
        refine ⟨by omega, iff_of_true (by omega) ?_⟩
        rw [hxg]
        intro hc
        exact hnotin (hc ▸ hyg)

theorem walkItems_split (data : InstancesJSON) (ao uo : List String) :
    walkItems data ao uo =
      (apiItems data.api ao 0).1 ++
      (uiItems data.ui uo (apiItems data.api ao 0).2).1 := rfl

theorem walkItems_chain (data : InstancesJSON) (ao uo : List String)
    (hao : ao.Nodup) (huo : uo.Nodup) (hdisj : ∀ x ∈ ao, x ∉ uo) :
    List.Chain' OrderStep (walkItems data ao uo) := by
  rcases apiItems_props data.api ao 0 hao with ⟨ha1, _, ha3⟩
  rcases uiItems_props data.ui uo (apiItems data.api ao 0).2 huo with ⟨hu1, _, hu3⟩
  rw [walkItems_split]
  refine List.chain'_append.2 ⟨ha3, hu3, ?_⟩
  intro x hx y hy
  rcases ha1 x (mem_of_getLastQ hx) with ⟨hxg, _, hxb⟩
  rcases hu1 y (mem_of_headQ hy) with ⟨hyg, hyo, _⟩
  refine ⟨by omega, iff_of_true (by omega) ?_⟩
  intro hc
  exact hdisj x.group hxg (hc ▸ hyg)

/-- C5: whenever the section substring is located, the keys produced by
the (modelled) structured parse are returned ordered by the first
literal occurrence of each key's quoted form in the section text — the
hypotheses say each key's quoted form occurs (at position posOf) and
that occurrences are separated by at least the quoted length, which
holds whenever keys appear as actual JSON keys; the result is a
permutation of the key set sorted by occurrence position, not
alphabetical.  A missing section (or missing opening brace) yields the
empty sequence for every input.  The spec example recovers declaration
order beta, alpha from alphabetically-listed keys, and on truncated
input (unclosed brace, a key whose quoted form is absent) the scan
stops early with the partial order [x] instead of failing. -/
theorem orderingExtractor_spec (pk : List Char → List String)
    (jsonStr sec sj : List Char) (posOf : String → Nat)
    (hsec : sectionSub jsonStr sec = some sj)
    (hne : ∀ k ∈ (pk sj).dedup, k ≠ "")
    (hocc : ∀ k ∈ (pk sj).dedup, strIndexOf sj (quoteKey k) = some (posOf k))
    (hdist : ∀ a ∈ (pk sj).dedup, ∀ b ∈ (pk sj).dedup, a ≠ b → posOf a ≠ posOf b)
    (hgap : ∀ a ∈ (pk sj).dedup, ∀ b ∈ (pk sj).dedup, a ≠ b → posOf a < posOf b →
      posOf a + a.toList.length + 2 ≤ posOf b) :
    (extractOrderFromJSON pk jsonStr sec).Perm (pk sj).dedup ∧
    (extractOrderFromJSON pk jsonStr sec).Pairwise (fun a b => posOf a < posOf b) ∧
    (∀ (pk2 : List Char → List String) (js2 sec2 : List Char),
      sectionSub js2 sec2 = none → extractOrderFromJSON pk2 js2 sec2 = []) ∧
    extractOrderFromJSON (fun _ => ["alpha", "beta"])
      ("\x7b\"api\":\x7b\"beta\":1,\"alpha\":2\x7d\x7d".toList) ("api".toList) =
      ["beta", "alpha"] ∧
    extractOrderFromJSON (fun _ => ["beta", "x"])
      ("\x7b\"api\":\x7b\"x\":2,\"bet".toList) ("api".toList) = ["x"] := by
  have hmain := scanKeys_sorted sj posOf ((pk sj).dedup).length ((pk sj).dedup) 0 rfl
    (List.nodup_dedup _) hne hocc (fun k _ => Nat.zero_le _) hdist hgap
  have heq : extractOrderFromJSON pk jsonStr sec =
      scanKeys sj ((pk sj).dedup).length ((pk sj).dedup) 0 := by
    rw [extractOrder_eq, hsec]
  refine ⟨?_, ?_, ?_, by decide, by decide⟩
  · rw [heq]
    exact hmain.1
  · rw [heq]
    exact hmain.2
  · intro pk2 js2 sec2 h
    rw [extractOrder_eq, h]

/-- Witness for C5 on the spec's example section: keys supplied
alphabetically are returned in textual order beta, alpha. -/
theorem orderingExtractor_spec_witness :
    (extractOrderFromJSON (fun _ => ["alpha", "beta"])
      ("\x7b\"api\":\x7b\"beta\":1,\"alpha\":2\x7d\x7d".toList) ("api".toList)).Perm
      (((fun (_ : List Char) => ["alpha", "beta"])
        ("\x7b\"beta\":1,\"alpha\":2\x7d".toList)).dedup) ∧
    (extractOrderFromJSON (fun _ => ["alpha", "beta"])
      ("\x7b\"api\":\x7b\"beta\":1,\"alpha\":2\x7d\x7d".toList) ("api".toList)).Pairwise
      (fun a b => (if a = "beta" then 1 else 10) < (if b = "beta" then 1 else 10)) :=
  ⟨(orderingExtractor_spec (fun _ => ["alpha", "beta"])
      ("\x7b\"api\":\x7b\"beta\":1,\"alpha\":2\x7d\x7d".toList) ("api".toList)
      ("\x7b\"beta\":1,\"alpha\":2\x7d".toList)
      (fun k => if k = "beta" then 1 else 10)
      (by decide) (by decide) (by decide) (by decide) (by decide)).1,
   (orderingExtractor_spec (fun _ => ["alpha", "beta"])
      ("\x7b\"api\":\x7b\"beta\":1,\"alpha\":2\x7d\x7d".toList) ("api".toList)
      ("\x7b\"beta\":1,\"alpha\":2\x7d".toList)
      (fun k => if k = "beta" then 1 else 10)
      (by decide) (by decide) (by decide) (by decide) (by decide)).2.1⟩

/-- C7: when the extracted group orders have no duplicate names within a
section and no name shared between the API and UI sections (so that the
group name determines the section), the reconciled sequence has
non-decreasing groupOrder, strictly increasing exactly at group
boundaries, and every endpoint of an API group is ordered strictly
before every endpoint of a UI group. -/
theorem reconcile_groupOrder_monotone (data : InstancesJSON) (ao uo : List String)
    (old : List Instance) (hao : ao.Nodup) (huo : uo.Nodup)
    (hdisj : ∀ x ∈ ao, x ∉ uo) :
    List.Chain' (fun a b => a.groupOrder ≤ b.groupOrder ∧
      (a.groupOrder < b.groupOrder ↔ a.group ≠ b.group)) (reconcile data ao uo old).1 ∧
    (∀ x ∈ (reconcile data ao uo old).1, ∀ y ∈ (reconcile data ao uo old).1,
      x.group ∈ ao → y.group ∈ uo → x.groupOrder < y.groupOrder) := by
  have hpair : (reconcile data ao uo old).1.map (fun i => (i.group, i.groupOrder)) =
      (walkItems data ao uo).map (fun w => (w.group, w.gOrder)) := by
    rw [reconcile_fst, assignIndexes_map_groupPair, applyItems_map_groupPair]
  constructor
  · have hws := walkItems_chain data ao uo hao huo hdisj
    have h1 : List.Chain' (fun p q : String × Nat => p.2 ≤ q.2 ∧ (p.2 < q.2 ↔ p.1 ≠ q.1))
        ((walkItems data ao uo).map (fun w => (w.group, w.gOrder))) := by
      rw [List.chain'_map]
      exact hws
    rw [← hpair, List.chain'_map] at h1
    exact h1
  · intro x hx y hy hxa hyu
    have hxm : (x.group, x.groupOrder) ∈
        (walkItems data ao uo).map (fun w => (w.group, w.gOrder)) := by
      rw [← hpair]
      exact List.mem_map_of_mem _ hx
    have hym : (y.group, y.groupOrder) ∈
        (walkItems data ao uo).map (fun w => (w.group, w.gOrder)) := by
      rw [← hpair]
      exact List.mem_map_of_mem _ hy
    rcases List.mem_map.1 hxm with ⟨w, hw, hweq⟩
    rcases List.mem_map.1 hym with ⟨v, hv, hveq⟩
    injection hweq with hwg hwo
    injection hveq with hvg hvo
    rcases apiItems_props data.api ao 0 hao with ⟨ha1, _, _⟩
    rcases uiItems_props data.ui uo (apiItems data.api ao 0).2 huo with ⟨hu1, _, _⟩
    rw [walkItems_split] at hw hv
    have hwapi : w ∈ (apiItems data.api ao 0).1 := by
      rcases List.mem_append.1 hw with h | h
      · exact h
      · exfalso
        rcases hu1 w h with ⟨hg, _, _⟩
        exact hdisj w.group (by rw [hwg]; exact hxa) hg
    have hvui : v ∈ (uiItems data.ui uo (apiItems data.api ao 0).2).1 := by
      rcases List.mem_append.1 hv with h | h
      · exfalso
        rcases ha1 v h with ⟨hg, _, _⟩
        exact hdisj v.group hg (by rw [hvg]; exact hyu)
      · exact h
    rcases ha1 w hwapi with ⟨_, _, hwb⟩
    rcases hu1 v hvui with ⟨_, hvlo, _⟩
    omega

/-- Witness for C7: two API groups followed by one UI group. -/
theorem reconcile_groupOrder_monotone_witness :
    List.Chain' (fun a b => a.groupOrder ≤ b.groupOrder ∧
      (a.groupOrder < b.groupOrder ↔ a.group ≠ b.group))
      (reconcile ⟨[("a1", ⟨["x1"], false⟩), ("a2", ⟨["x2", "x3"], true⟩)], [("w1", ["y1"])]⟩
        ["a1", "a2"] ["w1"] []).1 ∧
    (∀ x ∈ (reconcile ⟨[("a1", ⟨["x1"], false⟩), ("a2", ⟨["x2", "x3"], true⟩)],
        [("w1", ["y1"])]⟩ ["a1", "a2"] ["w1"] []).1,
      ∀ y ∈ (reconcile ⟨[("a1", ⟨["x1"], false⟩), ("a2", ⟨["x2", "x3"], true⟩)],
        [("w1", ["y1"])]⟩ ["a1", "a2"] ["w1"] []).1,
      x.group ∈ ["a1", "a2"] → y.group ∈ ["w1"] → x.groupOrder < y.groupOrder) :=
  reconcile_groupOrder_monotone
    ⟨[("a1", ⟨["x1"], false⟩), ("a2", ⟨["x2", "x3"], true⟩)], [("w1", ["y1"])]⟩
    ["a1", "a2"] ["w1"] [] (by decide) (by decide) (by decide)

/-- C8: every check cycle reaches the unconditional broadcast; but the
reconciliation broadcast decision misses a membership change.  Starting
from the empty registry, a configuration listing the URL u twice yields
a 2-instance registry; reconciling it against a configuration listing u
once shrinks the registry to 1 instance (one endpoint removed), yet the
computed addedCount (1 - (2 - 0) = -1) and removedCount (0) suppress the
broadcast. -/
theorem broadcast_policy_evaluation :
    (∀ (maxHist start : Nat) (elapsed : Instance → Nat) (probe : Instance → ProbeResult)
      (insts : List Instance), (checkAll maxHist start elapsed probe insts).2 = true) ∧
    (reconcile ⟨[("g", ⟨["u", "u"], false⟩)], []⟩ ["g"] [] []).1.length = 2 ∧
    (reconcile ⟨[("g", ⟨["u"], false⟩)], []⟩ ["g"] []
        (reconcile ⟨[("g", ⟨["u", "u"], false⟩)], []⟩ ["g"] [] []).1).1.length = 1 ∧
    (reconcile ⟨[("g", ⟨["u"], false⟩)], []⟩ ["g"] []
        (reconcile ⟨[("g", ⟨["u", "u"], false⟩)], []⟩ ["g"] [] []).1).2 = false :=
  ⟨fun _ _ _ _ _ => rfl, by decide, by decide, by decide⟩

/-- C2: with a configured capacity of at least 1 (config.go getMaxHistory
guarantees MaxCheckHistory >= 1), the history length never exceeds the
capacity after an append; appending to a full history evicts exactly the
oldest entry, keeping the remaining entries in oldest-first order; and
any number of further appends keeps the length bounded. -/
theorem checkHistory_bounded_fifo (maxHist : Nat) (checks : List Check) (c : Check)
    (hm : 1 ≤ maxHist) :
    (appendCheck maxHist checks c).length ≤ maxHist ∧
    (checks.length = maxHist → appendCheck maxHist checks c = checks.drop 1 ++ [c]) ∧
    (∀ more : List Check,
      (more.foldl (appendCheck maxHist) checks).length ≤ max checks.length maxHist) := by
  have hone : ∀ (cs : List Check) (c' : Check),
      (appendCheck maxHist cs c').length ≤ maxHist := by
    intro cs c'
    unfold appendCheck
    split
    · simp only [List.length_drop]
      omega
    · simp only [List.length_append, List.length_singleton] at *
      omega
  refine ⟨hone checks c, ?_, ?_⟩
  · intro hfull
    unfold appendCheck
    have hlen : (checks ++ [c]).length = maxHist + 1 := by simp [hfull]
    rw [if_pos (by omega)]
    rw [hlen]
    have h1 : maxHist + 1 - maxHist = 1 := by omega
    rw [h1]
    have hle : 1 ≤ checks.length := by omega
    exact List.drop_append_of_le_length hle
  · intro more
    induction more generalizing checks with
    | nil => simp only [List.foldl_nil]; exact Nat.le_max_left _ _
    | cons c' t ih =>
      calc (List.foldl (appendCheck maxHist) (appendCheck maxHist checks c') t).length
          ≤ max (appendCheck maxHist checks c').length maxHist := ih _
        _ ≤ max maxHist maxHist := by
            exact max_le_max_right _ (hone checks c')
        _ ≤ max checks.length maxHist := by simp

/-- Witness for C2 at capacity 2 with a full history. -/
theorem checkHistory_bounded_fifo_witness :
    (appendCheck 2 [⟨0, 200, 10, true, ""⟩, ⟨1, 200, 11, true, ""⟩] ⟨2, 500, 12, false, ""⟩).length ≤ 2 ∧
    appendCheck 2 [⟨0, 200, 10, true, ""⟩, ⟨1, 200, 11, true, ""⟩] ⟨2, 500, 12, false, ""⟩ =
      [⟨1, 200, 11, true, ""⟩, ⟨2, 500, 12, false, ""⟩] := by
  have h := checkHistory_bounded_fifo 2
    [⟨0, 200, 10, true, ""⟩, ⟨1, 200, 11, true, ""⟩] ⟨2, 500, 12, false, ""⟩ (by decide)
  refine ⟨h.1, ?_⟩
  have h2 := h.2.1 (by decide)
  simpa using h2

/-- C4: a reconciliation attempt that fails at the fetch step (transport
error or status outside 2xx) or at the parse step leaves the registry
exactly as it was and reports an error to the caller. -/
theorem reconcile_failure_unchanged
    (parse : List Char → Option InstancesJSON) (parseKeys : List Char → List String)
    (fetch : FetchResult) (old : List Instance)
    (h : (∃ msg, fetch = FetchResult.netError msg) ∨
         (∃ s b, fetch = FetchResult.response s b ∧ (s < 200 ∨ 300 ≤ s)) ∨
         (∃ b, fetch = FetchResult.response 200 b ∧ parse b = none)) :
    (runUpdate parse parseKeys fetch old).1 = old ∧
    (runUpdate parse parseKeys fetch old).2 ≠ none := by
  rcases h with ⟨msg, rfl⟩ | ⟨s, b, rfl, hs⟩ | ⟨b, rfl, hp⟩
  · simp [runUpdate, updateInstancesM]
  · have hs' : s ≠ 200 := by omega
    simp [runUpdate, updateInstancesM, hs']
  · simp [runUpdate, updateInstancesM, hp]

/-- Witness for C4: a 500 response from the configuration source. -/
theorem reconcile_failure_unchanged_witness :
    (runUpdate (fun _ => none) (fun _ => []) (FetchResult.response 500 []) []).1 = [] ∧
    (runUpdate (fun _ => none) (fun _ => []) (FetchResult.response 500 []) []).2 ≠ none :=
  reconcile_failure_unchanged (fun _ => none) (fun _ => [])
    (FetchResult.response 500 []) []
    (Or.inr (Or.inl ⟨500, [], rfl, Or.inr (by decide)⟩))

/-- C6: the probe target is the URL plus the fixed search-query suffix
for api-kind endpoints and the unchanged URL for ui-kind; a transport
failure records success=false, statusCode=0 and the failure description
as the error message; a completed response records the status code, no
error message, and success exactly for status codes in [200,300).  The
Check recorded by checkInstance is appended to the history. -/
theorem probe_target_and_classification (inst : Instance)
    (maxHist start elapsed : Nat) (msg : String) (code : Nat) :
    (inst.instanceType = "api" → checkURL inst = inst.url ++ "/search/?s=kanye") ∧
    (inst.instanceType = "ui" → checkURL inst = inst.url) ∧
    ((probeCheck start elapsed (ProbeResult.failure msg)).success = false ∧
      (probeCheck start elapsed (ProbeResult.failure msg)).statusCode = 0 ∧
      (probeCheck start elapsed (ProbeResult.failure msg)).error = msg ∧
      (msg ≠ "" → (probeCheck start elapsed (ProbeResult.failure msg)).error ≠ "")) ∧
    (((probeCheck start elapsed (ProbeResult.completed code)).success = true ↔
        (200 ≤ code ∧ code < 300)) ∧
      (probeCheck start elapsed (ProbeResult.completed code)).statusCode = code ∧
      (probeCheck start elapsed (ProbeResult.completed code)).error = "") ∧
    (checkInstance maxHist start elapsed (ProbeResult.failure msg) inst).checks =
      appendCheck maxHist inst.checks (probeCheck start elapsed (ProbeResult.failure msg)) := by
  refine ⟨?_, ?_, ⟨rfl, rfl, rfl, fun h => h⟩, ⟨?_, rfl, rfl⟩, rfl⟩
  · intro h; simp [checkURL, h]
  · intro h; simp [checkURL, h]
  · simp [probeCheck]

/-- Witness for C6: an api endpoint, a failed probe and a 204 response. -/
theorem probe_target_and_classification_witness :
    checkURL { group := "g", url := "http://a", instanceType := "api", cors := true,
               groupOrder := 0, index := 1, checks := [] } = "http://a/search/?s=kanye" ∧
    (probeCheck 5 7 (ProbeResult.failure "dial timeout")).statusCode = 0 ∧
    ((probeCheck 5 7 (ProbeResult.completed 204)).success = true ↔ (200 ≤ 204 ∧ 204 < 300)) := by
  have h := probe_target_and_classification
    { group := "g", url := "http://a", instanceType := "api", cors := true,
      groupOrder := 0, index := 1, checks := [] } 5 5 7 "dial timeout" 204
  exact ⟨h.1 rfl, h.2.2.1.2.1, h.2.2.2.1.1⟩

/-- C9: the per-endpoint view computed by GetInstancesData derives
uptime as 100 * successCount / totalChecks (0 on empty history), average
response time as sum / totalChecks in integer division (0 on empty),
and lastCheck as the most recent entry (absent on empty); the spec's
worked examples evaluate as stated. -/
theorem snapshot_metrics (inst : Instance) :
    (inst.checks = [] →
      (instanceData inst).uptime = 0 ∧
      (instanceData inst).avgResponseTime = 0 ∧
      (instanceData inst).lastCheck = none) ∧
    (inst.checks ≠ [] →
      (instanceData inst).uptime =
        100 * (inst.checks.countP (fun c => c.success) : ℚ) / (inst.checks.length : ℚ) ∧
      (instanceData inst).avgResponseTime =
        (inst.checks.map (fun c => c.responseTime)).sum / inst.checks.length ∧
      (instanceData inst).lastCheck = inst.checks.getLast?) ∧
    calculateUptime [⟨0, 200, 1, true, ""⟩, ⟨1, 200, 1, true, ""⟩,
      ⟨2, 500, 1, false, ""⟩, ⟨3, 200, 1, true, ""⟩] = 75 ∧
    calculateAvgResponseTime [⟨0, 200, 100, true, ""⟩, ⟨1, 200, 200, true, ""⟩,
      ⟨2, 200, 300, true, ""⟩] = 200 := by
  refine ⟨?_, ?_, ?_, by decide⟩
  · intro h
    simp [instanceData, calculateUptime, calculateAvgResponseTime, h]
  · intro h
    have hlen : inst.checks.length ≠ 0 := by
      simpa [List.length_eq_zero] using h
    refine ⟨?_, ?_, ?_⟩
    · simp only [instanceData, calculateUptime, if_neg hlen]
      ring
    · simp [instanceData, calculateAvgResponseTime, hlen]
    · simp [instanceData, hlen]
  · norm_num [calculateUptime, List.countP_cons, List.countP_nil]

/-- Witness for C9 with a one-entry history and with the empty history. -/
theorem snapshot_metrics_witness :
    (instanceData ⟨"g", "u", "ui", false, 0, 1, []⟩).uptime = 0 ∧
    (instanceData ⟨"g", "u", "ui", false, 0, 1, [⟨0, 200, 40, true, ""⟩]⟩).uptime =
      100 * ((([⟨0, 200, 40, true, ""⟩] : List Check).countP (fun c => c.success) : ℚ)) /
        ((([⟨0, 200, 40, true, ""⟩] : List Check).length : ℚ)) := by
  constructor
  · exact ((snapshot_metrics _).1 rfl).1
  · exact ((snapshot_metrics _).2.1 (by decide)).1

end Status
